import Mathlib

/-!
Verification of the incremental Schelling-segregation engine
(`Python_Version/agentsJ.py` and `Python_Version/modelJ.py`).

The Python code is shallowly embedded: the mutable model object becomes the
record `SState`, the mesa `NetworkGrid` occupancy is represented by the
agents' `pos` fields (the single source of truth for occupancy, as in the
code, where `model.empty` tracks the unoccupied nodes), and every mutating
method becomes a state-transforming function.  Python `float` arithmetic on
the parameters is modelled by `ℚ`; all concrete inputs used below take
dyadic values on which binary floating point is exact, so the rational
model agrees with the floats the code computes.  Draws from the
process-global `random` module (`random.choice`) are modelled by an
explicit stream of naturals consumed left to right; `random.choice(seq)`
picks index `draw % len(seq)` and raises `IndexError` on an empty
sequence, which we model with `Except`.
-/

namespace Schelling

/-- Nodes of the (integer-relabelled) networkx graph. -/
abbrev Node := Nat

/-- The fixed topology: entry `n` is the mesa neighborhood
`grid.get_neighborhood(n)` of node `n` (neighbors, center excluded),
cached in `model.addresses` at construction. -/
abbrev Topology := List (List Node)

/-- `addresses[n]` / `get_neighborhood(n)`. -/
def nbrs (g : Topology) (n : Node) : List Node := g.getD n []

/-- One `SchellingAgent`: its `type`, its current node `pos`
(maintained by `grid.move_agent`), and its cached `happy` flag. -/
structure SAgent where
  type : Nat
  pos : Node
  happy : Bool
deriving DecidableEq

instance : Inhabited SAgent := ⟨⟨0, 0, false⟩⟩

/-- The mutable state of one `Schelling` model instance.  `agent_list`
is the model's list of agents (an agent is identified by its index in
this list); `happy` is the running happy counter `model.happy`;
`empty` is `model.empty`; `unhappy_list` holds the indices of the
agents in `model.unhappy_list` (Python stores the agent objects
themselves; object identity becomes the index). -/
structure SState where
  agent_list : List SAgent
  happy : Int
  empty : List Node
  unhappy_list : List Nat
  number_of_moves : Nat
  n_agents : Nat
  running : Bool
  homophily : ℚ
  density : ℚ
  minority_pc : ℚ
deriving DecidableEq

/-- The stream of draws taken from the process-global `random` module. -/
abbrev Rand := List Nat

/-- `random.choice(l)`: pick the element at index `draw % len(l)` and
consume one draw; on an empty sequence raise
`IndexError: Cannot choose from an empty sequence`. -/
def randChoice (l : List Nat) (r : Rand) : Except String (Nat × Rand) :=
  match l with
  | [] => .error "Cannot choose from an empty sequence"
  | x :: xs => .ok ((x :: xs).getD (r.headD 0 % (x :: xs).length) x, r.tail)

/-- Agent `i` of the state, as read through the agent list. -/
def agentAt (s : SState) (i : Nat) : SAgent := s.agent_list.getD i default

/-- `grid.get_cell_list_contents(nodes)`: the agents currently occupying
the given nodes, in node order (at most one agent per node throughout a
run of this model).  Agents are returned as indices into `agent_list`. -/
def occupantsOf (s : SState) (nodes : List Node) : List Nat :=
  nodes.flatMap (fun n =>
    (List.range s.agent_list.length).filter (fun j => (agentAt s j).pos = n))

/-- The similarity fraction computed identically in
`SchellingAgent.count` and `SchellingAgent.recount`: over
`grid.get_neighbors(self.pos)` (the agents on neighboring nodes), the
fraction with the agent's own type, and `1` when there are none. -/
def similarFrac (g : Topology) (s : SState) (i : Nat) : ℚ :=
  let a := agentAt s i
  let occ := occupantsOf s (nbrs g a.pos)
  if occ.length > 0 then
    ((occ.filter (fun j => (agentAt s j).type = a.type)).length : ℚ) / (occ.length : ℚ)
  else 1

end Schelling

namespace SchellingAgent

open Schelling

/-- `SchellingAgent.count` on agent `i`: set the flag from the verdict,
increment `model.happy` when happy, otherwise append to
`model.unhappy_list`.  Called once per agent during setup. -/
def count (g : Topology) (i : Nat) (s : SState) : SState :=
  let similar := similarFrac g s i
  if s.homophily ≤ similar then
    { s with
      agent_list := s.agent_list.set i { agentAt s i with happy := true },
      happy := s.happy + 1 }
  else
    { s with
      agent_list := s.agent_list.set i { agentAt s i with happy := false },
      unhappy_list := s.unhappy_list ++ [i] }

/-- `SchellingAgent.recount` on agent `i`: recompute the verdict and
mutate only on a flip, adjusting `model.happy` and `model.unhappy_list`.
Python's `unhappy_list.remove(self)` removes the first occurrence (and
would raise `ValueError` were the agent absent, which cannot happen in a
consistent state); `List.erase` models it. -/
def recount (g : Topology) (i : Nat) (s : SState) : SState :=
  let similar := similarFrac g s i
  if s.homophily ≤ similar then
    if (agentAt s i).happy = false then
      { s with
        happy := s.happy + 1,
        agent_list := s.agent_list.set i { agentAt s i with happy := true },
        unhappy_list := s.unhappy_list.erase i }
    else s
  else
    if (agentAt s i).happy = true then
      { s with
        happy := s.happy - 1,
        agent_list := s.agent_list.set i { agentAt s i with happy := false },
        unhappy_list := s.unhappy_list ++ [i] }
    else s

/-- `SchellingAgent.move` on agent `i`: when unhappy, capture the agents
around the old node, draw a destination from `model.empty`, relocate
(returning the old node to `empty`, removing the destination), bump
`number_of_moves`, capture the agents around the new node, then recount
the mover, the old neighbors and the new neighbors. -/
def move (g : Topology) (i : Nat) (s : SState) (r : Rand) :
    Except String (SState × Rand) :=
  if (agentAt s i).happy = false then
    let oldNeighbors := occupantsOf s (nbrs g (agentAt s i).pos)
    match randChoice s.empty r with
    | .error e => .error e
    | .ok (dest, r') =>
      let s₁ := { s with empty := s.empty ++ [(agentAt s i).pos] }
      let s₂ := { s₁ with agent_list := s₁.agent_list.set i { agentAt s i with pos := dest } }
      let s₃ := { s₂ with empty := s₂.empty.erase dest }
      let s₄ := { s₃ with number_of_moves := s₃.number_of_moves + 1 }
      let newNeighbors := occupantsOf s₄ (nbrs g dest)
      let s₅ := recount g i s₄
      let s₆ := oldNeighbors.foldl (fun t j => recount g j t) s₅
      let s₇ := newNeighbors.foldl (fun t j => recount g j t) s₆
      .ok (s₇, r')
  else .ok (s, r)

end SchellingAgent

namespace Schelling

/-- Python `round` on an exact rational value: round half to even
(what CPython's `round` does on the exact binary value of a float). -/
def pyRound (q : ℚ) : Int :=
  let f := ⌊q⌋
  let frac := q - (f : ℚ)
  if frac < 1/2 then f
  else if 1/2 < frac then f + 1
  else if f % 2 = 0 then f else f + 1

/-- One placement loop of `Schelling.__init__`, unrolled to its iteration
count `k` (`while self.n_agents < bound` places one agent per pass):
create an agent of type `t`, `place_agent` it on `random.choice(self.empty)`,
remove that node from `empty`, and append to `agent_list`. -/
def placeLoop (t : Nat) : Nat → SState → Rand → Except String (SState × Rand)
  | 0, s, r => .ok (s, r)
  | k + 1, s, r =>
    match randChoice s.empty r with
    | .error e => .error e
    | .ok (node, r') =>
      placeLoop t k
        { s with
          agent_list := s.agent_list ++ [⟨t, node, false⟩],
          empty := s.empty.erase node,
          n_agents := s.n_agents + 1 } r'

/-- `Schelling.__init__`.  `order` is the order in which
`self.agents.shuffle_do("count")` visits the agents — the shuffle drawn
from mesa's per-instance `self.random`, the only thing the `seed`
parameter influences; the placement draws come from the global stream
`r`.  `total_agents = density * node_count` stays an unrounded rational,
exactly as the Python float; the first loop runs
`round(total_agents * minority_pc)` times placing type‑0 agents and the
second runs until `n_agents` reaches `total_agents`, i.e.
`⌈total_agents⌉ - agents0_count` more times, placing type‑1 agents. -/
def init (g : Topology) (density minority_pc homophily : ℚ)
    (order : List Nat) (r : Rand) : Except String (SState × Rand) :=
  let s0 : SState :=
    { agent_list := []
      happy := 0
      empty := List.range g.length
      unhappy_list := []
      number_of_moves := 0
      n_agents := 0
      running := true
      homophily := homophily
      density := density
      minority_pc := minority_pc }
  let total : ℚ := density * (g.length : ℚ)
  let agents0_count : Int := pyRound (total * minority_pc)
  match placeLoop 0 agents0_count.toNat s0 r with
  | .error e => .error e
  | .ok (s1, r1) =>
    match placeLoop 1 (⌈total⌉.toNat - agents0_count.toNat) s1 r1 with
    | .error e => .error e
    | .ok (s2, r2) =>
      .ok (order.foldl (fun t j => SchellingAgent.count g j t) s2, r2)

/-- `Schelling.step`: draw one agent from `model.unhappy_list`, run its
`move`, then set `self.running = self.happy < self.n_agents`.  The
Python method has no `return` statement, so it returns `None`; the
third component records that returned value. -/
def step (g : Topology) (s : SState) (r : Rand) :
    Except String (SState × Rand × Option Bool) :=
  match randChoice s.unhappy_list r with
  | .error e => .error e
  | .ok (i, r') =>
    match SchellingAgent.move g i s r' with
    | .error e => .error e
    | .ok (s', r'') =>
      .ok ({ s' with running := decide (s'.happy < (s'.n_agents : Int)) }, r'', none)

/-- The consistency invariant tying `model.happy`, `model.unhappy_list`
and the agents' flags together: the list has no duplicates, holds
exactly the (indices of the) agents whose flag is `false`, and the happy
counter plus the list length is the agent count. -/
def Consistent (s : SState) : Prop :=
  s.unhappy_list.Nodup ∧
  (∀ j ∈ s.unhappy_list, j < s.agent_list.length ∧ (agentAt s j).happy = false) ∧
  (∀ j < s.agent_list.length, (agentAt s j).happy = false → j ∈ s.unhappy_list) ∧
  s.happy + (s.unhappy_list.length : Int) = (s.n_agents : Int) ∧
  s.n_agents = s.agent_list.length

instance (s : SState) : Decidable (Consistent s) := by
  unfold Consistent; infer_instance

/-- The states a model instance can be in between steps: freshly
constructed (with the shuffled counting order a permutation of the
agents), or the successful result of one more `step`. -/
inductive Reachable (g : Topology) : SState → Prop
  | init (density minority_pc homophily : ℚ) (order : List Nat) (r r' : Rand)
      (s : SState)
      (h : Schelling.init g density minority_pc homophily order r = .ok (s, r'))
      (hord : order.Perm (List.range s.agent_list.length)) :
      Reachable g s
  | step (s s' : SState) (r r' : Rand) (b : Option Bool)
      (hs : Reachable g s)
      (h : Schelling.step g s r = .ok (s', r', b)) :
      Reachable g s'

/-- The invariant maintained during the initial `shuffle_do("count")`
pass: `done` lists the agents already counted; the unhappy list holds
exactly the counted agents whose flag is `false`, and the happy counter
plus the unhappy-list length is the number of agents counted so far. -/
def CInv (s : SState) (done : List Nat) : Prop :=
  s.unhappy_list.Nodup ∧
  (∀ j ∈ s.unhappy_list,
    j ∈ done ∧ j < s.agent_list.length ∧ (agentAt s j).happy = false) ∧
  (∀ j ∈ done, (agentAt s j).happy = false → j ∈ s.unhappy_list) ∧
  s.happy + (s.unhappy_list.length : Int) = (done.length : Int)

/-- The placement-phase invariant: the empty list has no duplicates, the
placed agents occupy pairwise distinct nodes, and no empty node is
occupied. -/
def PlaceInv (s : SState) : Prop :=
  s.empty.Nodup ∧ (s.agent_list.map (·.pos)).Nodup ∧
  ∀ p ∈ s.empty, p ∉ s.agent_list.map (·.pos)

instance : Inhabited SState :=
  ⟨⟨[], 0, [], [], 0, 0, true, 0, 0, 0⟩⟩

/-! ### Concrete model instances used by the witnesses -/

/-- A one-node, edgeless topology. -/
def demoTopo : Topology := [[]]

/-- The model built by `Schelling(G, density=0.5, minority_pc=0,
homophily=0.5)` on `demoTopo`: one type‑1 agent on node 0, happy because
isolated. -/
def demoState : SState :=
  { agent_list := [⟨1, 0, true⟩]
    happy := 1
    empty := []
    unhappy_list := []
    number_of_moves := 0
    n_agents := 1
    running := true
    homophily := 1/2
    density := 1/2
    minority_pc := 0 }

/-- Four nodes: an edge 0–1 plus the isolated nodes 2 and 3. -/
def demoTopoB : Topology := [[1], [0], [], []]

/-- A consistent mid-run state on `demoTopoB`: two adjacent unhappy
agents of opposite types on nodes 0 and 1, one happy agent on the
isolated node 3, and node 2 empty. -/
def demoStateB : SState :=
  { agent_list := [⟨0, 0, false⟩, ⟨1, 1, false⟩, ⟨0, 3, true⟩]
    happy := 1
    empty := [2]
    unhappy_list := [0, 1]
    number_of_moves := 0
    n_agents := 3
    running := true
    homophily := 1/2
    density := 1/2
    minority_pc := 1/2 }

/-- The state after `move` relocates agent 0 of `demoStateB` to the
empty node 2 (global draw 0): everyone ends up happy. -/
def demoMoveStateB : SState :=
  { agent_list := [⟨0, 2, true⟩, ⟨1, 1, true⟩, ⟨0, 3, true⟩]
    happy := 3
    empty := [0]
    unhappy_list := []
    number_of_moves := 1
    n_agents := 3
    running := true
    homophily := 1/2
    density := 1/2
    minority_pc := 1/2 }

/-- The state after one `step` of `demoStateB` with global draws
`[0, 0]`: as `demoMoveStateB`, and `running` drops to `false`. -/
def demoStepStateB : SState :=
  { demoMoveStateB with running := false }

/-- Ten isolated nodes. -/
def topoC6 : Topology := List.replicate 10 []

/-- The model built on `topoC6` with `density=0.25`,
`minority_pc=0.5` and global draws `[0, 0, 0]`: three agents are
placed (one of type 0, two of type 1), all isolated hence happy. -/
def stateC6 : SState :=
  { agent_list := [⟨0, 0, true⟩, ⟨1, 1, true⟩, ⟨1, 2, true⟩]
    happy := 3
    empty := [3, 4, 5, 6, 7, 8, 9]
    unhappy_list := []
    number_of_moves := 0
    n_agents := 3
    running := true
    homophily := 1/2
    density := 1/4
    minority_pc := 1/2 }

/-! ### Basic list and state lemmas -/

theorem getD_set_ne (l : List SAgent) (i j : Nat) (a d : SAgent) (h : j ≠ i) :
    (l.set i a).getD j d = l.getD j d := by
  simp [List.getD, List.getElem?_set_ne (Ne.symm h)]

theorem getD_set_self (l : List SAgent) (i : Nat) (a d : SAgent) (h : i < l.length) :
    (l.set i a).getD i d = a := by
  simp [List.getD, List.getElem?_set_self, h]

theorem agentAt_eq_getElem (s : SState) (i : Nat) (h : i < s.agent_list.length) :
    agentAt s i = s.agent_list[i] := by
  simp [agentAt, List.getD, List.getElem?_eq_getElem h]

theorem agentAt_set_ne {s t : SState} {i : Nat} {a : SAgent}
    (ht : t.agent_list = s.agent_list.set i a) {j : Nat} (h : j ≠ i) :
    agentAt t j = agentAt s j := by
  unfold agentAt
  rw [ht]
  exact getD_set_ne _ _ _ _ _ h

theorem agentAt_set_self {s t : SState} {i : Nat} {a : SAgent}
    (ht : t.agent_list = s.agent_list.set i a) (h : i < s.agent_list.length) :
    agentAt t i = a := by
  unfold agentAt
  rw [ht]
  exact getD_set_self _ _ _ _ h

theorem agentAt_set_out {s t : SState} {i : Nat} {a : SAgent}
    (ht : t.agent_list = s.agent_list.set i a) (h : s.agent_list.length ≤ i) :
    agentAt t i = agentAt s i := by
  unfold agentAt
  rw [ht, List.set_eq_of_length_le h]

/-- Membership in `occupantsOf`: exactly the in-range agent indices whose
position lies on one of the given nodes. -/
theorem mem_occupantsOf {s : SState} {nodes : List Node} {j : Nat} :
    j ∈ occupantsOf s nodes ↔
      j < s.agent_list.length ∧ (agentAt s j).pos ∈ nodes := by
  simp only [occupantsOf, List.mem_flatMap, List.mem_filter, List.mem_range,
    decide_eq_true_eq]
  constructor
  · rintro ⟨n, hn, hj, rfl⟩
    exact ⟨hj, hn⟩
  · rintro ⟨hj, hpos⟩
    exact ⟨(agentAt s j).pos, hpos, hj, rfl⟩

/-- Two states agreeing on agent-list length and pointwise on positions
and types have the same occupancy view. -/
theorem occupantsOf_congr (s s' : SState)
    (hlen : s'.agent_list.length = s.agent_list.length)
    (hpos : ∀ j, (agentAt s' j).pos = (agentAt s j).pos) (nodes : List Node) :
    occupantsOf s' nodes = occupantsOf s nodes := by
  unfold occupantsOf
  rw [hlen]
  refine List.flatMap_congr (fun n _ => ?_)
  exact List.filter_congr (fun j _ => by rw [hpos j])

/-- `similarFrac` depends only on the length of the agent list and on
the agents' positions and types. -/
theorem similarFrac_congr (g : Topology) (s s' : SState)
    (hlen : s'.agent_list.length = s.agent_list.length)
    (hpos : ∀ j, (agentAt s' j).pos = (agentAt s j).pos)
    (htype : ∀ j, (agentAt s' j).type = (agentAt s j).type) (i : Nat) :
    similarFrac g s' i = similarFrac g s i := by
  simp only [similarFrac]
  rw [hpos i, occupantsOf_congr s s' hlen hpos]
  have hfil :
      (occupantsOf s (nbrs g (agentAt s i).pos)).filter
          (fun j => decide ((agentAt s' j).type = (agentAt s' i).type)) =
        (occupantsOf s (nbrs g (agentAt s i).pos)).filter
          (fun j => decide ((agentAt s j).type = (agentAt s i).type)) :=
    List.filter_congr (fun j _ => by rw [htype j, htype i])
  rw [hfil]

end Schelling

namespace SchellingAgent

open Schelling

/-! ### Frame lemmas for `recount` -/

theorem recount_agent_list_length (g : Topology) (i : Nat) (s : SState) :
    (recount g i s).agent_list.length = s.agent_list.length := by
  by_cases h1 : s.homophily ≤ similarFrac g s i <;>
    by_cases h2 : (agentAt s i).happy = false <;>
      simp [recount, h1, h2]

theorem recount_agentAt_ne (g : Topology) (i j : Nat) (s : SState) (h : j ≠ i) :
    agentAt (recount g i s) j = agentAt s j := by
  by_cases h1 : s.homophily ≤ similarFrac g s i <;>
    by_cases h2 : (agentAt s i).happy = false <;>
      simp only [recount, h1, h2, if_true, if_false, Bool.not_eq_false] at * <;>
      first
        | rfl
        | exact agentAt_set_ne rfl h

theorem recount_agentAt_self (g : Topology) (i : Nat) (s : SState)
    (hlt : i < s.agent_list.length) :
    (agentAt (recount g i s) i).pos = (agentAt s i).pos ∧
      (agentAt (recount g i s) i).type = (agentAt s i).type := by
  by_cases h1 : s.homophily ≤ similarFrac g s i <;>
    by_cases h2 : (agentAt s i).happy = false <;>
      simp only [recount, h1, h2, if_true, if_false, Bool.not_eq_false] at * <;>
      first
        | exact ⟨rfl, rfl⟩
        | exact ⟨by rw [agentAt_set_self rfl hlt], by rw [agentAt_set_self rfl hlt]⟩

theorem recount_agentAt_pos (g : Topology) (i j : Nat) (s : SState) :
    (agentAt (recount g i s) j).pos = (agentAt s j).pos := by
  by_cases hji : j = i
  · subst hji
    by_cases hlt : j < s.agent_list.length
    · exact (recount_agentAt_self g j s hlt).1
    · have hle : s.agent_list.length ≤ j := Nat.le_of_not_lt hlt
      by_cases h1 : s.homophily ≤ similarFrac g s j <;>
        by_cases h2 : (agentAt s j).happy = false <;>
          simp only [recount, h1, h2, if_true, if_false, Bool.not_eq_false] at * <;>
          first
            | rfl
            | exact congrArg SAgent.pos (agentAt_set_out rfl hle)
  · rw [recount_agentAt_ne g i j s hji]

theorem recount_agentAt_type (g : Topology) (i j : Nat) (s : SState) :
    (agentAt (recount g i s) j).type = (agentAt s j).type := by
  by_cases hji : j = i
  · subst hji
    by_cases hlt : j < s.agent_list.length
    · exact (recount_agentAt_self g j s hlt).2
    · have hle : s.agent_list.length ≤ j := Nat.le_of_not_lt hlt
      by_cases h1 : s.homophily ≤ similarFrac g s j <;>
        by_cases h2 : (agentAt s j).happy = false <;>
          simp only [recount, h1, h2, if_true, if_false, Bool.not_eq_false] at * <;>
          first
            | rfl
            | exact congrArg SAgent.type (agentAt_set_out rfl hle)
  · rw [recount_agentAt_ne g i j s hji]

theorem recount_empty (g : Topology) (i : Nat) (s : SState) :
    (recount g i s).empty = s.empty := by
  by_cases h1 : s.homophily ≤ similarFrac g s i <;>
    by_cases h2 : (agentAt s i).happy = false <;>
      simp [recount, h1, h2]

theorem recount_number_of_moves (g : Topology) (i : Nat) (s : SState) :
    (recount g i s).number_of_moves = s.number_of_moves := by
  by_cases h1 : s.homophily ≤ similarFrac g s i <;>
    by_cases h2 : (agentAt s i).happy = false <;>
      simp [recount, h1, h2]

theorem recount_n_agents (g : Topology) (i : Nat) (s : SState) :
    (recount g i s).n_agents = s.n_agents := by
  by_cases h1 : s.homophily ≤ similarFrac g s i <;>
    by_cases h2 : (agentAt s i).happy = false <;>
      simp [recount, h1, h2]

theorem recount_running (g : Topology) (i : Nat) (s : SState) :
    (recount g i s).running = s.running := by
  by_cases h1 : s.homophily ≤ similarFrac g s i <;>
    by_cases h2 : (agentAt s i).happy = false <;>
      simp [recount, h1, h2]

theorem recount_homophily (g : Topology) (i : Nat) (s : SState) :
    (recount g i s).homophily = s.homophily := by
  by_cases h1 : s.homophily ≤ similarFrac g s i <;>
    by_cases h2 : (agentAt s i).happy = false <;>
      simp [recount, h1, h2]

/-! ### `recount` preserves the consistency invariant -/

theorem recount_consistent (g : Topology) (i : Nat) (s : SState)
    (hi : i < s.agent_list.length) (hc : Consistent s) :
    Consistent (recount g i s) := by
  obtain ⟨hnd, hmem, hcompl, hsum, hna⟩ := hc
  by_cases h1 : s.homophily ≤ similarFrac g s i <;>
    by_cases h2 : (agentAt s i).happy = false
  · -- verdict happy, flag was false: flip to happy
    have hiu : i ∈ s.unhappy_list := hcompl i hi h2
    have hlen1 : 1 ≤ s.unhappy_list.length := List.length_pos.mpr (by
      intro hnil; rw [hnil] at hiu; exact absurd hiu (List.not_mem_nil i))
    simp only [recount, h1, h2, if_true]
    refine ⟨hnd.erase i, ?_, ?_, ?_, ?_⟩
    · intro j hj
      obtain ⟨hji, hjl⟩ := (hnd.mem_erase_iff).mp hj
      obtain ⟨hjlt, hjhap⟩ := hmem j hjl
      refine ⟨by simpa using hjlt, ?_⟩
      rw [agentAt_set_ne rfl hji]
      exact hjhap
    · intro j hjlt hjhap
      have hjlt' : j < s.agent_list.length := by simpa using hjlt
      by_cases hji : j = i
      · subst hji
        rw [agentAt_set_self rfl hjlt'] at hjhap
        simp at hjhap
      · rw [agentAt_set_ne rfl hji] at hjhap
        exact (hnd.mem_erase_iff).mpr ⟨hji, hcompl j hjlt' hjhap⟩
    · simp only [List.length_erase_of_mem hiu]
      omega
    · simpa using hna
  · -- verdict happy, flag already true: no mutation
    simp only [recount, h1, h2, if_true, if_false]
    exact ⟨hnd, hmem, hcompl, hsum, hna⟩
  · -- verdict unhappy, flag already false: no mutation
    simp only [recount, h1, h2, if_false, Bool.false_eq_true, reduceIte]
    exact ⟨hnd, hmem, hcompl, hsum, hna⟩
  · -- verdict unhappy, flag was true: flip to unhappy
    have hhap : (agentAt s i).happy = true := by
      revert h2; cases (agentAt s i).happy <;> simp
    have hiu : i ∉ s.unhappy_list := fun hmem' => by
      have := (hmem i hmem').2; rw [hhap] at this; simp at this
    simp only [recount, h1, h2, hhap, if_true, if_false]
    refine ⟨?_, ?_, ?_, ?_, ?_⟩
    · refine List.nodup_append.mpr ⟨hnd, List.nodup_singleton i, fun j hj hj' => ?_⟩
      have hji : j = i := by simpa using hj'
      exact hiu (hji ▸ hj)
    · intro j hj
      rcases List.mem_append.mp hj with hjl | hji
      · obtain ⟨hjlt, hjhap⟩ := hmem j hjl
        have hji : j ≠ i := fun hji => hiu (hji ▸ hjl)
        refine ⟨by simpa using hjlt, ?_⟩
        rw [agentAt_set_ne rfl hji]
        exact hjhap
      · have hji : j = i := by simpa using hji
        subst hji
        exact ⟨by simpa using hi, by rw [agentAt_set_self rfl hi]⟩
    · intro j hjlt hjhap
      have hjlt' : j < s.agent_list.length := by simpa using hjlt
      by_cases hji : j = i
      · subst hji
        exact List.mem_append.mpr (Or.inr (by simp))
      · rw [agentAt_set_ne rfl hji] at hjhap
        exact List.mem_append.mpr (Or.inl (hcompl j hjlt' hjhap))
    · simp only [List.length_append, List.length_singleton]
      omega
    · simpa using hna

/-- Folding `recount` over any list of in-range agent indices preserves
the consistency invariant. -/
theorem foldRecount_consistent (g : Topology) (l : List Nat) (s : SState)
    (hl : ∀ j ∈ l, j < s.agent_list.length) (hc : Consistent s) :
    Consistent (l.foldl (fun t j => recount g j t) s) := by
  induction l generalizing s with
  | nil => exact hc
  | cons j l ih =>
    simp only [List.foldl_cons]
    refine ih (recount g j s) (fun k hk => ?_)
      (recount_consistent g j s (hl j (List.mem_cons_self j l)) hc)
    rw [recount_agent_list_length]
    exact hl k (List.mem_cons_of_mem j hk)

/-! ### Frame lemmas for folded recounts -/

theorem foldRecount_agentAt_not_mem (g : Topology) (l : List Nat) (s : SState)
    (j : Nat) (hj : j ∉ l) :
    agentAt (l.foldl (fun t k => recount g k t) s) j = agentAt s j := by
  induction l generalizing s with
  | nil => rfl
  | cons k l ih =>
    simp only [List.foldl_cons]
    rw [ih (recount g k s) (fun h => hj (List.mem_cons_of_mem k h)),
      recount_agentAt_ne g k j s (fun h => hj (h ▸ List.mem_cons_self k l))]

theorem foldRecount_agentAt_pos (g : Topology) (l : List Nat) (s : SState) (j : Nat) :
    (agentAt (l.foldl (fun t k => recount g k t) s) j).pos = (agentAt s j).pos := by
  induction l generalizing s with
  | nil => rfl
  | cons k l ih =>
    simp only [List.foldl_cons]
    rw [ih (recount g k s), recount_agentAt_pos]

theorem foldRecount_agent_list_length (g : Topology) (l : List Nat) (s : SState) :
    (l.foldl (fun t k => recount g k t) s).agent_list.length = s.agent_list.length := by
  induction l generalizing s with
  | nil => rfl
  | cons k l ih =>
    simp only [List.foldl_cons]
    rw [ih (recount g k s), recount_agent_list_length]

theorem foldRecount_empty (g : Topology) (l : List Nat) (s : SState) :
    (l.foldl (fun t k => recount g k t) s).empty = s.empty := by
  induction l generalizing s with
  | nil => rfl
  | cons k l ih =>
    simp only [List.foldl_cons]
    rw [ih (recount g k s), recount_empty]

theorem foldRecount_number_of_moves (g : Topology) (l : List Nat) (s : SState) :
    (l.foldl (fun t k => recount g k t) s).number_of_moves = s.number_of_moves := by
  induction l generalizing s with
  | nil => rfl
  | cons k l ih =>
    simp only [List.foldl_cons]
    rw [ih (recount g k s), recount_number_of_moves]

theorem foldRecount_n_agents (g : Topology) (l : List Nat) (s : SState) :
    (l.foldl (fun t k => recount g k t) s).n_agents = s.n_agents := by
  induction l generalizing s with
  | nil => rfl
  | cons k l ih =>
    simp only [List.foldl_cons]
    rw [ih (recount g k s), recount_n_agents]

end SchellingAgent

namespace Schelling

/-- `randChoice` returns a member of the sequence it chose from. -/
theorem randChoice_mem {l : List Nat} {r : Rand} {x : Nat} {r' : Rand}
    (h : randChoice l r = .ok (x, r')) : x ∈ l := by
  match l with
  | [] => exact absurd h (by simp [randChoice])
  | y :: ys =>
    have hx : (y :: ys).getD (r.headD 0 % (y :: ys).length) y = x := by
      have := h
      simp only [randChoice, Except.ok.injEq, Prod.mk.injEq] at this
      exact this.1
    rw [← hx]
    by_cases hlt : r.headD 0 % (y :: ys).length < (y :: ys).length
    · rw [List.getD_eq_getElem _ _ hlt]
      exact List.getElem_mem hlt
    · rw [List.getD_eq_default _ _ (Nat.le_of_not_lt hlt)]
      exact List.mem_cons_self y ys

/-- The consistency invariant only depends on the flags, counters and
unhappy list, not on positions or parameters. -/
theorem consistent_congr (s t : SState)
    (hlen : t.agent_list.length = s.agent_list.length)
    (hflag : ∀ j, (agentAt t j).happy = (agentAt s j).happy)
    (hh : t.happy = s.happy) (hu : t.unhappy_list = s.unhappy_list)
    (hn : t.n_agents = s.n_agents) (hc : Consistent s) : Consistent t := by
  obtain ⟨hnd, hmem, hcompl, hsum, hna⟩ := hc
  refine ⟨hu ▸ hnd, ?_, ?_, ?_, ?_⟩
  · intro j hj
    rw [hu] at hj
    obtain ⟨hjlt, hjhap⟩ := hmem j hj
    exact ⟨hlen ▸ hjlt, (hflag j).trans hjhap⟩
  · intro j hjlt hjhap
    rw [hu]
    exact hcompl j (hlen ▸ hjlt) ((hflag j).symm.trans hjhap)
  · rw [hh, hu, hn]; exact hsum
  · rw [hn, hlen]; exact hna

end Schelling

namespace SchellingAgent

open Schelling

/-- `move` preserves the consistency invariant. -/
theorem move_consistent (g : Topology) (i : Nat) (s : SState) (r : Rand)
    (s' : SState) (r' : Rand) (hi : i < s.agent_list.length) (hc : Consistent s)
    (hm : move g i s r = .ok (s', r')) : Consistent s' := by
  unfold move at hm
  by_cases h2 : (agentAt s i).happy = false
  · rw [if_pos h2] at hm
    cases hre : randChoice s.empty r with
    | error e => rw [hre] at hm; exact absurd hm (by simp)
    | ok p =>
      obtain ⟨dest, r₁⟩ := p
      rw [hre] at hm
      simp only [Except.ok.injEq, Prod.mk.injEq] at hm
      obtain ⟨hs', -⟩ := hm
      subst hs'
      -- the repositioned state
      set s₄ : SState :=
        { s with
          empty := (s.empty ++ [(agentAt s i).pos]).erase dest,
          agent_list := s.agent_list.set i { agentAt s i with pos := dest },
          number_of_moves := s.number_of_moves + 1 } with hs₄
      have hc₄ : Consistent s₄ := by
        refine consistent_congr s s₄ (by simp [hs₄]) (fun j => ?_) rfl rfl rfl hc
        by_cases hji : j = i
        · subst hji
          rw [agentAt_set_self (s := s) rfl hi]
        · rw [agentAt_set_ne (s := s) rfl hji]
      have hlen₄ : s₄.agent_list.length = s.agent_list.length := by simp [hs₄]
      have hc₅ : Consistent (recount g i s₄) :=
        recount_consistent g i s₄ (by rw [hlen₄]; exact hi) hc₄
      have hc₆ : Consistent ((occupantsOf s (nbrs g (agentAt s i).pos)).foldl
          (fun t j => recount g j t) (recount g i s₄)) := by
        refine foldRecount_consistent g _ _ (fun j hj => ?_) hc₅
        rw [recount_agent_list_length, hlen₄]
        exact (mem_occupantsOf.mp hj).1
      refine foldRecount_consistent g _ _ (fun j hj => ?_) hc₆
      rw [foldRecount_agent_list_length, recount_agent_list_length, hlen₄]
      have := (mem_occupantsOf.mp hj).1
      rw [hlen₄] at this
      exact this
  · rw [if_neg h2] at hm
    simp only [Except.ok.injEq, Prod.mk.injEq] at hm
    obtain ⟨hs', -⟩ := hm
    subst hs'
    exact hc

end SchellingAgent

namespace Schelling

/-- `step` preserves the consistency invariant. -/
theorem step_consistent (g : Topology) (s : SState) (r : Rand)
    (s' : SState) (r' : Rand) (b : Option Bool) (hc : Consistent s)
    (hm : step g s r = .ok (s', r', b)) : Consistent s' := by
  unfold step at hm
  cases hre : randChoice s.unhappy_list r with
  | error e => rw [hre] at hm; exact absurd hm (by simp)
  | ok p =>
    obtain ⟨i, r₁⟩ := p
    rw [hre] at hm
    dsimp only at hm
    have hi : i < s.agent_list.length := (hc.2.1 i (randChoice_mem hre)).1
    cases hmv : SchellingAgent.move g i s r₁ with
    | error e => rw [hmv] at hm; exact absurd hm (by simp)
    | ok q =>
      obtain ⟨t, r₂⟩ := q
      rw [hmv] at hm
      simp only [Except.ok.injEq, Prod.mk.injEq] at hm
      obtain ⟨hs', -⟩ := hm
      subst hs'
      have hct : Consistent t := SchellingAgent.move_consistent g i s r₁ t r₂ hi hc hmv
      exact consistent_congr t _ rfl (fun j => rfl) rfl rfl rfl hct

end Schelling

namespace SchellingAgent

open Schelling

/-! ### Frame lemmas for `count` -/

theorem count_agent_list_length (g : Topology) (i : Nat) (s : SState) :
    (count g i s).agent_list.length = s.agent_list.length := by
  by_cases h1 : s.homophily ≤ similarFrac g s i <;> simp [count, h1]

theorem count_agentAt_ne (g : Topology) (i j : Nat) (s : SState) (h : j ≠ i) :
    agentAt (count g i s) j = agentAt s j := by
  by_cases h1 : s.homophily ≤ similarFrac g s i <;>
    simp only [count, h1, if_true, if_false, reduceIte] <;>
      exact agentAt_set_ne rfl h

theorem count_agentAt_self (g : Topology) (i : Nat) (s : SState)
    (hlt : i < s.agent_list.length) :
    agentAt (count g i s) i =
      { agentAt s i with happy := decide (s.homophily ≤ similarFrac g s i) } := by
  by_cases h1 : s.homophily ≤ similarFrac g s i <;>
    simp only [count, h1, if_true, if_false, reduceIte, decide_eq_true_eq] <;>
      rw [agentAt_set_self rfl hlt] <;> simp [h1]

theorem count_n_agents (g : Topology) (i : Nat) (s : SState) :
    (count g i s).n_agents = s.n_agents := by
  by_cases h1 : s.homophily ≤ similarFrac g s i <;> simp [count, h1]

theorem count_empty (g : Topology) (i : Nat) (s : SState) :
    (count g i s).empty = s.empty := by
  by_cases h1 : s.homophily ≤ similarFrac g s i <;> simp [count, h1]

theorem count_homophily (g : Topology) (i : Nat) (s : SState) :
    (count g i s).homophily = s.homophily := by
  by_cases h1 : s.homophily ≤ similarFrac g s i <;> simp [count, h1]

theorem countFold_agent_list_length (g : Topology) (l : List Nat) (s : SState) :
    (l.foldl (fun t k => count g k t) s).agent_list.length = s.agent_list.length := by
  induction l generalizing s with
  | nil => rfl
  | cons k l ih =>
    simp only [List.foldl_cons]
    rw [ih (count g k s), count_agent_list_length]

theorem countFold_n_agents (g : Topology) (l : List Nat) (s : SState) :
    (l.foldl (fun t k => count g k t) s).n_agents = s.n_agents := by
  induction l generalizing s with
  | nil => rfl
  | cons k l ih =>
    simp only [List.foldl_cons]
    rw [ih (count g k s), count_n_agents]

end SchellingAgent

namespace Schelling

theorem count_cinv (g : Topology) (i : Nat) (s : SState) (done : List Nat)
    (hinv : CInv s done) (hi : i < s.agent_list.length) (hdone : i ∉ done) :
    CInv (SchellingAgent.count g i s) (done ++ [i]) := by
  obtain ⟨hnd, hmem, hcompl, hsum⟩ := hinv
  by_cases h1 : s.homophily ≤ similarFrac g s i
  · simp only [SchellingAgent.count, h1, if_true]
    refine ⟨hnd, ?_, ?_, ?_⟩
    · intro j hj
      obtain ⟨hjdone, hjlt, hjhap⟩ := hmem j hj
      have hji : j ≠ i := fun hji => hdone (hji ▸ hjdone)
      exact ⟨List.mem_append.mpr (Or.inl hjdone), by simpa using hjlt,
        by rw [agentAt_set_ne rfl hji]; exact hjhap⟩
    · intro j hj hjhap
      rcases List.mem_append.mp hj with hjdone | hji
      · have hji : j ≠ i := fun hji => hdone (hji ▸ hjdone)
        rw [agentAt_set_ne rfl hji] at hjhap
        exact hcompl j hjdone hjhap
      · have hji : j = i := by simpa using hji
        subst hji
        rw [agentAt_set_self rfl hi] at hjhap
        simp at hjhap
    · simp only [List.length_append, List.length_singleton]
      omega
  · simp only [SchellingAgent.count, h1, if_false, reduceIte]
    have hiu : i ∉ s.unhappy_list := fun hmem' => hdone (hmem i hmem').1
    refine ⟨?_, ?_, ?_, ?_⟩
    · refine List.nodup_append.mpr ⟨hnd, List.nodup_singleton i, fun j hj hj' => ?_⟩
      have hji : j = i := by simpa using hj'
      exact hiu (hji ▸ hj)
    · intro j hj
      rcases List.mem_append.mp hj with hjl | hji
      · obtain ⟨hjdone, hjlt, hjhap⟩ := hmem j hjl
        have hji : j ≠ i := fun hji => hdone (hji ▸ hjdone)
        exact ⟨List.mem_append.mpr (Or.inl hjdone), by simpa using hjlt,
          by rw [agentAt_set_ne rfl hji]; exact hjhap⟩
      · have hji : j = i := by simpa using hji
        subst hji
        exact ⟨List.mem_append.mpr (Or.inr (by simp)), by simpa using hi,
          by rw [agentAt_set_self rfl hi]⟩
    · intro j hj hjhap
      rcases List.mem_append.mp hj with hjdone | hji
      · have hji : j ≠ i := fun hji => hdone (hji ▸ hjdone)
        rw [agentAt_set_ne rfl hji] at hjhap
        exact List.mem_append.mpr (Or.inl (hcompl j hjdone hjhap))
      · have hji : j = i := by simpa using hji
        subst hji
        exact List.mem_append.mpr (Or.inr (by simp))
    · simp only [List.length_append, List.length_singleton]
      omega

theorem countFold_cinv (g : Topology) (l : List Nat) :
    ∀ (done : List Nat) (s : SState), CInv s done → l.Nodup →
      (∀ j ∈ l, j < s.agent_list.length ∧ j ∉ done) →
      CInv (l.foldl (fun t j => SchellingAgent.count g j t) s) (done ++ l) := by
  induction l with
  | nil => intro done s hinv _ _; simpa using hinv
  | cons j l ih =>
    intro done s hinv hnd hl
    simp only [List.foldl_cons]
    have hj := hl j (List.mem_cons_self j l)
    have hstep := count_cinv g j s done hinv hj.1 hj.2
    have := ih (done ++ [j]) (SchellingAgent.count g j s) hstep
      (List.Nodup.of_cons hnd)
      (fun k hk => by
        rw [SchellingAgent.count_agent_list_length]
        refine ⟨(hl k (List.mem_cons_of_mem j hk)).1, fun hkin => ?_⟩
        rcases List.mem_append.mp hkin with h | h
        · exact (hl k (List.mem_cons_of_mem j hk)).2 h
        · have : k = j := by simpa using h
          exact (List.nodup_cons.mp hnd).1 (this ▸ hk))
    simpa [List.append_assoc] using this

/-- Basic bookkeeping facts about a successful placement loop. -/
theorem placeLoop_ok_basic (t : Nat) (k : Nat) :
    ∀ (s : SState) (r : Rand) (s' : SState) (r' : Rand),
      placeLoop t k s r = .ok (s', r') →
      s'.unhappy_list = s.unhappy_list ∧ s'.happy = s.happy ∧
        s'.n_agents = s.n_agents + k ∧
        s'.agent_list.length = s.agent_list.length + k ∧
        s'.homophily = s.homophily := by
  induction k with
  | zero =>
    intro s r s' r' h
    simp only [placeLoop, Except.ok.injEq, Prod.mk.injEq] at h
    obtain ⟨hs, -⟩ := h
    subst hs
    simp
  | succ k ih =>
    intro s r s' r' h
    unfold placeLoop at h
    cases hre : randChoice s.empty r with
    | error e => rw [hre] at h; exact absurd h (by simp)
    | ok p =>
      obtain ⟨node, r₁⟩ := p
      rw [hre] at h
      dsimp only at h
      obtain ⟨h1, h2, h3, h4, h5⟩ := ih _ r₁ s' r' h
      refine ⟨by simpa using h1, by simpa using h2, ?_, ?_, by simpa using h5⟩
      · simp only at h3; omega
      · simp only [List.length_append, List.length_singleton] at h4; omega

/-- A freshly constructed model satisfies the consistency invariant
(provided the shuffled counting order is, as in the code, a permutation
of the agents). -/
theorem init_consistent (g : Topology) (d mp hφ : ℚ) (ord : List Nat)
    (r r' : Rand) (s : SState)
    (hok : init g d mp hφ ord r = .ok (s, r'))
    (hord : ord.Perm (List.range s.agent_list.length)) : Consistent s := by
  unfold init at hok
  dsimp only at hok
  cases hp0 : placeLoop 0 (pyRound (d * (g.length : ℚ) * mp)).toNat
      { agent_list := [], happy := 0, empty := List.range g.length,
        unhappy_list := [], number_of_moves := 0, n_agents := 0,
        running := true, homophily := hφ, density := d, minority_pc := mp } r with
  | error e => rw [hp0] at hok; exact absurd hok (by simp)
  | ok p1 =>
    obtain ⟨s1, r1⟩ := p1
    rw [hp0] at hok
    dsimp only at hok
    cases hp1 : placeLoop 1
        (⌈d * (g.length : ℚ)⌉.toNat - (pyRound (d * (g.length : ℚ) * mp)).toNat) s1 r1 with
    | error e => rw [hp1] at hok; exact absurd hok (by simp)
    | ok p2 =>
      obtain ⟨s2, r2⟩ := p2
      rw [hp1] at hok
      dsimp only at hok
      simp only [Except.ok.injEq, Prod.mk.injEq] at hok
      obtain ⟨hs, -⟩ := hok
      obtain ⟨hu1, hh1, hn1, hl1, -⟩ := placeLoop_ok_basic _ _ _ _ _ _ hp0
      obtain ⟨hu2, hh2, hn2, hl2, -⟩ := placeLoop_ok_basic _ _ _ _ _ _ hp1
      -- after placement: empty unhappy list, zero happy counter,
      -- and the running count agrees with the list length
      have hu : s2.unhappy_list = [] := by rw [hu2, hu1]
      have hh : s2.happy = 0 := by rw [hh2, hh1]
      have hnl : s2.n_agents = s2.agent_list.length := by
        rw [hn2, hn1, hl2, hl1]
        rfl
      have hbase : CInv s2 [] := by
        refine ⟨by rw [hu]; exact List.nodup_nil, ?_, ?_, ?_⟩
        · intro j hj; rw [hu] at hj; exact absurd hj (List.not_mem_nil j)
        · intro j hj; exact absurd hj (List.not_mem_nil j)
        · rw [hh, hu]; simp
      have hslen : s.agent_list.length = s2.agent_list.length := by
        rw [← hs, SchellingAgent.countFold_agent_list_length]
      have hord' : ord.Perm (List.range s2.agent_list.length) := hslen ▸ hord
      have hordnd : ord.Nodup := hord'.nodup_iff.mpr (List.nodup_range _)
      have hcinv := countFold_cinv g ord [] s2 hbase hordnd
        (fun j hj => ⟨by
            have := hord'.mem_iff.mp hj
            simpa using this,
          fun h => absurd h (List.not_mem_nil j)⟩)
      rw [List.nil_append] at hcinv
      rw [← hs]
      obtain ⟨cnd, cmem, ccompl, csum⟩ := hcinv
      set sc := ord.foldl (fun t j => SchellingAgent.count g j t) s2 with hsc
      have hclen : sc.agent_list.length = s2.agent_list.length := by
        rw [hsc, SchellingAgent.countFold_agent_list_length]
      have hcn : sc.n_agents = s2.n_agents := by
        rw [hsc, SchellingAgent.countFold_n_agents]
      refine ⟨cnd, fun j hj => ⟨(cmem j hj).2.1, (cmem j hj).2.2⟩, ?_, ?_, ?_⟩
      · intro j hjlt hjhap
        refine ccompl j ?_ hjhap
        rw [hclen] at hjlt
        exact hord'.mem_iff.mpr (by simpa using hjlt)
      · rw [csum, hord'.length_eq]
        simp [hcn, hnl, hclen]
      · rw [hcn, hnl, hclen]

end Schelling

namespace Schelling

/-- Every reachable state is consistent. -/
theorem reachable_consistent (g : Topology) (s : SState)
    (h : Reachable g s) : Consistent s := by
  induction h with
  | init d mp hφ ord r r' s hok hord => exact init_consistent g d mp hφ ord r r' s hok hord
  | step s s' r r' b hs hst ih => exact step_consistent g s r s' r' b ih hst

end Schelling

namespace SchellingAgent

open Schelling

/-- After `recount`, the agent's flag equals the verdict it computed. -/
theorem recount_happy_self (g : Topology) (i : Nat) (s : SState)
    (hi : i < s.agent_list.length) :
    (agentAt (recount g i s) i).happy =
      decide (s.homophily ≤ similarFrac g s i) := by
  by_cases h1 : s.homophily ≤ similarFrac g s i <;>
    by_cases h2 : (agentAt s i).happy = false
  · simp only [recount]
    rw [if_pos h1, if_pos h2, agentAt_set_self rfl hi]
    simp [decide_eq_true h1]
  · simp only [recount]
    rw [if_pos h1, if_neg h2]
    have hhap : (agentAt s i).happy = true := by
      revert h2; cases (agentAt s i).happy <;> simp
    rw [hhap]
    exact (decide_eq_true h1).symm
  · simp only [recount]
    have hne : ¬((agentAt s i).happy = true) := by simp [h2]
    rw [if_neg h1, if_neg hne, h2]
    exact (decide_eq_false h1).symm
  · simp only [recount]
    have hhap : (agentAt s i).happy = true := by
      revert h2; cases (agentAt s i).happy <;> simp
    rw [if_neg h1, if_pos hhap, agentAt_set_self rfl hi]
    simp [decide_eq_false h1]

/-- When the verdict agrees with the current flag, `recount` mutates
nothing at all. -/
theorem recount_eq_self_of_same_verdict (g : Topology) (i : Nat) (s : SState)
    (h : s.homophily ≤ similarFrac g s i ↔ (agentAt s i).happy = true) :
    recount g i s = s := by
  by_cases h1 : s.homophily ≤ similarFrac g s i
  · have hhap : (agentAt s i).happy = true := h.mp h1
    simp [recount, h1, hhap]
  · have hhap : (agentAt s i).happy = false := by
      have := fun ht => h1 (h.mpr ht)
      revert this; cases (agentAt s i).happy <;> simp
    simp [recount, h1, hhap]

end SchellingAgent

namespace Schelling

/-- Setting only the `happy` field of one agent leaves the position map
of the agent list unchanged. -/
theorem map_pos_set_happy (s : SState) (i : Nat) (b : Bool) :
    (s.agent_list.set i { agentAt s i with happy := b }).map (·.pos) =
      s.agent_list.map (·.pos) := by
  apply List.ext_getElem?
  intro n
  rw [List.getElem?_map, List.getElem?_map]
  by_cases hni : n = i
  · subst hni
    by_cases hlt : n < s.agent_list.length
    · rw [List.getElem?_set_self hlt, List.getElem?_eq_getElem hlt]
      simp [agentAt_eq_getElem s n hlt]
    · rw [List.set_eq_of_length_le (Nat.le_of_not_lt hlt)]
  · rw [List.getElem?_set_ne (fun h => hni h.symm)]

/-- Setting only the `happy` field of one agent leaves the type map of
the agent list unchanged. -/
theorem map_type_set_happy (s : SState) (i : Nat) (b : Bool) :
    (s.agent_list.set i { agentAt s i with happy := b }).map (·.type) =
      s.agent_list.map (·.type) := by
  apply List.ext_getElem?
  intro n
  rw [List.getElem?_map, List.getElem?_map]
  by_cases hni : n = i
  · subst hni
    by_cases hlt : n < s.agent_list.length
    · rw [List.getElem?_set_self hlt, List.getElem?_eq_getElem hlt]
      simp [agentAt_eq_getElem s n hlt]
    · rw [List.set_eq_of_length_le (Nat.le_of_not_lt hlt)]
  · rw [List.getElem?_set_ne (fun h => hni h.symm)]

end Schelling

namespace SchellingAgent

open Schelling

theorem count_map_pos (g : Topology) (i : Nat) (s : SState) :
    (count g i s).agent_list.map (·.pos) = s.agent_list.map (·.pos) := by
  by_cases h1 : s.homophily ≤ similarFrac g s i <;>
    · simp only [count]
      first
        | rw [if_pos h1]; exact map_pos_set_happy s i true
        | rw [if_neg h1]; exact map_pos_set_happy s i false

theorem count_map_type (g : Topology) (i : Nat) (s : SState) :
    (count g i s).agent_list.map (·.type) = s.agent_list.map (·.type) := by
  by_cases h1 : s.homophily ≤ similarFrac g s i <;>
    · simp only [count]
      first
        | rw [if_pos h1]; exact map_type_set_happy s i true
        | rw [if_neg h1]; exact map_type_set_happy s i false

theorem countFold_map_pos (g : Topology) (l : List Nat) (s : SState) :
    (l.foldl (fun t k => count g k t) s).agent_list.map (·.pos) =
      s.agent_list.map (·.pos) := by
  induction l generalizing s with
  | nil => rfl
  | cons k l ih =>
    simp only [List.foldl_cons]
    rw [ih (count g k s), count_map_pos]

theorem countFold_map_type (g : Topology) (l : List Nat) (s : SState) :
    (l.foldl (fun t k => count g k t) s).agent_list.map (·.type) =
      s.agent_list.map (·.type) := by
  induction l generalizing s with
  | nil => rfl
  | cons k l ih =>
    simp only [List.foldl_cons]
    rw [ih (count g k s), count_map_type]

end SchellingAgent

namespace Schelling

/-- A successful placement loop appends `k` agents of type `t` to the
type map. -/
theorem placeLoop_ok_types (t : Nat) (k : Nat) :
    ∀ (s : SState) (r : Rand) (s' : SState) (r' : Rand),
      placeLoop t k s r = .ok (s', r') →
      s'.agent_list.map (·.type) =
        s.agent_list.map (·.type) ++ List.replicate k t := by
  induction k with
  | zero =>
    intro s r s' r' h
    simp only [placeLoop, Except.ok.injEq, Prod.mk.injEq] at h
    obtain ⟨hs, -⟩ := h
    subst hs
    simp
  | succ k ih =>
    intro s r s' r' h
    unfold placeLoop at h
    cases hre : randChoice s.empty r with
    | error e => rw [hre] at h; exact absurd h (by simp)
    | ok p =>
      obtain ⟨node, r₁⟩ := p
      rw [hre] at h
      dsimp only at h
      have := ih _ r₁ s' r' h
      rw [this]
      simp [List.replicate_succ, List.append_assoc]

/-- A successful placement loop preserves the placement invariant:
distinct occupied nodes, disjoint from the empty list. -/
theorem placeLoop_placeInv (t : Nat) (k : Nat) :
    ∀ (s : SState) (r : Rand) (s' : SState) (r' : Rand),
      placeLoop t k s r = .ok (s', r') → PlaceInv s → PlaceInv s' := by
  induction k with
  | zero =>
    intro s r s' r' h hp
    simp only [placeLoop, Except.ok.injEq, Prod.mk.injEq] at h
    obtain ⟨hs, -⟩ := h
    subst hs
    exact hp
  | succ k ih =>
    intro s r s' r' h hp
    unfold placeLoop at h
    cases hre : randChoice s.empty r with
    | error e => rw [hre] at h; exact absurd h (by simp)
    | ok p =>
      obtain ⟨node, r₁⟩ := p
      rw [hre] at h
      dsimp only at h
      refine ih _ r₁ s' r' h ?_
      obtain ⟨hend, hpnd, hdisj⟩ := hp
      have hnode : node ∈ s.empty := randChoice_mem hre
      have hnpos : node ∉ s.agent_list.map (·.pos) := hdisj node hnode
      refine ⟨hend.erase node, ?_, ?_⟩
      · simp only [List.map_append, List.map_cons, List.map_nil]
        refine List.nodup_append.mpr ⟨hpnd, List.nodup_singleton _, ?_⟩
        intro p hpmem hpmem'
        have : p = node := by simpa using hpmem'
        exact hnpos (this ▸ hpmem)
      · intro p hpmem
        have hpe : p ∈ s.empty := List.mem_of_mem_erase hpmem
        have hpne : p ≠ node := (hend.mem_erase_iff.mp hpmem).1
        simp only [List.map_append, List.map_cons, List.map_nil, List.mem_append,
          List.mem_singleton]
        rintro (hin | hin)
        · exact hdisj p hpe hin
        · exact hpne hin

end Schelling

namespace Schelling

theorem pyRound_zero : pyRound 0 = 0 := by
  norm_num [pyRound]

/-- When `density * node_count = 0`, construction places no agent,
whatever the other parameters are. -/
theorem init_zero_total (g : Topology) (d mp hφ : ℚ) (r : Rand)
    (htot : d * (g.length : ℚ) = 0) :
    Schelling.init g d mp hφ [] r =
      .ok (⟨[], 0, List.range g.length, [], 0, 0, true, hφ, d, mp⟩, r) := by
  unfold Schelling.init
  dsimp only
  rw [htot, zero_mul, pyRound_zero]
  simp [placeLoop]

end Schelling

section Claims

open Schelling SchellingAgent

/-- C1: after one executed `move`, only the moved agent and the agents
occupying nodes adjacent to its old node or to its new node may have a
changed `happy` flag; every other agent's flag is untouched (the flags
are not recomputed globally). -/
theorem locality_of_update (g : Topology) (s : SState) (i j : Nat) (r : Rand)
    (s' : SState) (r' : Rand) (hi : i < s.agent_list.length)
    (hm : SchellingAgent.move g i s r = .ok (s', r'))
    (hne : j ≠ i)
    (hold : (agentAt s j).pos ∉ nbrs g (agentAt s i).pos)
    (hnew : (agentAt s j).pos ∉ nbrs g (agentAt s' i).pos) :
    (agentAt s' j).happy = (agentAt s j).happy := by
  unfold SchellingAgent.move at hm
  by_cases h2 : (agentAt s i).happy = false
  · rw [if_pos h2] at hm
    cases hre : randChoice s.empty r with
    | error e => rw [hre] at hm; exact absurd hm (by simp)
    | ok p =>
      obtain ⟨dest, r₁⟩ := p
      rw [hre] at hm
      dsimp only at hm
      simp only [Except.ok.injEq, Prod.mk.injEq] at hm
      obtain ⟨hs', -⟩ := hm
      set s₄ : SState :=
        { s with
          empty := (s.empty ++ [(agentAt s i).pos]).erase dest,
          agent_list := s.agent_list.set i { agentAt s i with pos := dest },
          number_of_moves := s.number_of_moves + 1 } with hs₄def
      have hdest : (agentAt s' i).pos = dest := by
        rw [← hs', SchellingAgent.foldRecount_agentAt_pos,
          SchellingAgent.foldRecount_agentAt_pos, SchellingAgent.recount_agentAt_pos]
        rw [agentAt_set_self (s := s) rfl hi]
      have hjold : j ∉ occupantsOf s (nbrs g (agentAt s i).pos) := fun hmem =>
        hold (mem_occupantsOf.mp hmem).2
      have hjnew : j ∉ occupantsOf s₄ (nbrs g dest) := by
        intro hmem
        obtain ⟨hlt, hpos⟩ := mem_occupantsOf.mp hmem
        rw [agentAt_set_ne (s := s) (t := s₄) rfl hne, ← hdest] at hpos
        exact hnew hpos
      rw [← hs',
        SchellingAgent.foldRecount_agentAt_not_mem _ _ _ _ hjnew,
        SchellingAgent.foldRecount_agentAt_not_mem _ _ _ _ hjold,
        SchellingAgent.recount_agentAt_ne g i j _ hne,
        agentAt_set_ne (s := s) (t := s₄) rfl hne]
  · rw [if_neg h2] at hm
    simp only [Except.ok.injEq, Prod.mk.injEq] at hm
    obtain ⟨hs', -⟩ := hm
    rw [← hs']

theorem locality_of_update_witness :
    (agentAt demoMoveStateB 2).happy = (agentAt demoStateB 2).happy :=
  locality_of_update demoTopoB demoStateB 0 2 [0] demoMoveStateB []
    (by decide) (by with_unfolding_all rfl) (by decide) (by decide) (by decide)

/-- C2: in every state reachable after construction and after each
completed step, `happy + |unhappy list| = n_agents`, and the unhappy
list holds exactly the agents whose `happy` flag is `false`. -/
theorem counter_consistency (g : Topology) (s : SState) (h : Reachable g s) :
    s.happy + (s.unhappy_list.length : Int) = (s.n_agents : Int) ∧
    (∀ j < s.agent_list.length,
      (j ∈ s.unhappy_list ↔ (agentAt s j).happy = false)) := by
  obtain ⟨hnd, hmem, hcompl, hsum, hna⟩ := reachable_consistent g s h
  exact ⟨hsum, fun j hj =>
    ⟨fun hin => (hmem j hin).2, fun hf => hcompl j hj hf⟩⟩

theorem counter_consistency_witness :
    demoState.happy + (demoState.unhappy_list.length : Int) =
      (demoState.n_agents : Int) ∧
    (0 ∈ demoState.unhappy_list ↔ (agentAt demoState 0).happy = false) := by
  have h : Reachable demoTopo demoState :=
    Reachable.init (1/2) 0 (1/2) [0] [] [] demoState (by with_unfolding_all rfl)
      (by
        rw [show demoState.agent_list.length = 1 from rfl,
          show List.range 1 = [0] from rfl])
  exact ⟨(counter_consistency demoTopo demoState h).1,
    (counter_consistency demoTopo demoState h).2 0 (by decide)⟩

/-- C3: the similarity fraction is `1` when the agent has no occupied
neighbor and the same-type fraction over occupied neighbors otherwise;
consequently, whenever `homophily ≤ 1`, an agent with no occupied
neighbor has `happy = true` after `count` and after `recount`. -/
theorem isolation_happiness (g : Topology) (s : SState) (i : Nat)
    (hi : i < s.agent_list.length) :
    (occupantsOf s (nbrs g (agentAt s i).pos) = [] → similarFrac g s i = 1) ∧
    (occupantsOf s (nbrs g (agentAt s i).pos) ≠ [] →
      similarFrac g s i =
        (((occupantsOf s (nbrs g (agentAt s i).pos)).filter
            (fun j => (agentAt s j).type = (agentAt s i).type)).length : ℚ) /
          ((occupantsOf s (nbrs g (agentAt s i).pos)).length : ℚ)) ∧
    (occupantsOf s (nbrs g (agentAt s i).pos) = [] → s.homophily ≤ 1 →
      (agentAt (SchellingAgent.count g i s) i).happy = true ∧
      (agentAt (SchellingAgent.recount g i s) i).happy = true) := by
  have hempty : occupantsOf s (nbrs g (agentAt s i).pos) = [] →
      similarFrac g s i = 1 := by
    intro hocc
    simp [similarFrac, hocc]
  refine ⟨hempty, ?_, ?_⟩
  · intro hocc
    have hlen : 0 < (occupantsOf s (nbrs g (agentAt s i).pos)).length :=
      List.length_pos.mpr hocc
    simp only [similarFrac]
    rw [if_pos hlen]
  · intro hocc hφ
    have h1 : s.homophily ≤ similarFrac g s i := by
      rw [hempty hocc]; exact hφ
    constructor
    · rw [SchellingAgent.count_agentAt_self g i s hi]
      simp [decide_eq_true h1]
    · rw [SchellingAgent.recount_happy_self g i s hi]
      exact decide_eq_true h1

theorem isolation_happiness_witness :
    similarFrac demoTopo demoState 0 = 1 ∧
    (agentAt (SchellingAgent.count demoTopo 0 demoState) 0).happy = true ∧
    (agentAt (SchellingAgent.recount demoTopo 0 demoState) 0).happy = true := by
  have h := isolation_happiness demoTopo demoState 0 (by decide)
  exact ⟨h.1 (by decide),
    (h.2.2 (by decide) (by with_unfolding_all decide)).1,
    (h.2.2 (by decide) (by with_unfolding_all decide)).2⟩

/-- C4: in a consistent state, when `recount` computes a verdict equal
to the agent's current flag it mutates nothing, and `recount` is
idempotent: a second call with unchanged occupancy returns the state of
the first call unchanged. -/
theorem recount_idempotent (g : Topology) (s : SState) (i : Nat)
    (hc : Consistent s) (hi : i < s.agent_list.length) :
    ((s.homophily ≤ similarFrac g s i ↔ (agentAt s i).happy = true) →
      SchellingAgent.recount g i s = s) ∧
    SchellingAgent.recount g i (SchellingAgent.recount g i s) =
      SchellingAgent.recount g i s := by
  constructor
  · exact fun h => SchellingAgent.recount_eq_self_of_same_verdict g i s h
  · apply SchellingAgent.recount_eq_self_of_same_verdict
    rw [SchellingAgent.recount_homophily,
      similarFrac_congr g s (SchellingAgent.recount g i s)
        (SchellingAgent.recount_agent_list_length g i s)
        (fun j => SchellingAgent.recount_agentAt_pos g i j s)
        (fun j => SchellingAgent.recount_agentAt_type g i j s) i,
      SchellingAgent.recount_happy_self g i s hi]
    simp

theorem recount_idempotent_witness :
    SchellingAgent.recount demoTopo 0 demoState = demoState ∧
    SchellingAgent.recount demoTopo 0 (SchellingAgent.recount demoTopo 0 demoState) =
      SchellingAgent.recount demoTopo 0 demoState :=
  ⟨(recount_idempotent demoTopo demoState 0 (by decide) (by decide)).1
      (by with_unfolding_all decide),
   (recount_idempotent demoTopo demoState 0 (by decide) (by decide)).2⟩

/-- C5: the `seed` parameter does not govern the run.  All of the
code's `random.choice` draws come from the process-global `random`
module, which `seed` never seeds (it only seeds mesa's per-instance
`self.random`, used for the initial shuffle, here the `order`
argument).  Two constructions identical in topology, parameters and
shuffle order but taken at different global-stream states place their
agent on different nodes, so the subsequent `(moved_agent_id,
destination_node)` sequences differ — refuting reproducibility from
the seed alone, as the docstring promises. -/
theorem seed_determinism_broken :
    (Schelling.init [[], []] (1/2) 0 (1/2) [0] [0]).toOption.map
        (fun p => (agentAt p.1 0).pos) = some 0 ∧
    (Schelling.init [[], []] (1/2) 0 (1/2) [0] [1]).toOption.map
        (fun p => (agentAt p.1 0).pos) = some 1 := by
  constructor <;> with_unfolding_all rfl

/-- C6 (counterexample): on ten nodes with `density = 1/4` the code
places 3 agents (`ceil(2.5)`), not `round(density * node_count) = 2`:
the placement loop runs while `n_agents < density * node_count` with
the float product never rounded. -/
theorem construction_count_not_round :
    (Schelling.init topoC6 (1/4) (1/2) (1/2) [0, 1, 2] [0, 0, 0]).toOption.map
        (fun p => p.1.n_agents) = some 3 ∧
    pyRound ((1/4 : ℚ) * (topoC6.length : ℚ)) ≠ 3 := by
  constructor
  · with_unfolding_all rfl
  · with_unfolding_all decide

/-- C6 (amended): construction places
`round(density·N·minority_pc) + (ceil(density·N) - round(density·N·minority_pc))`
agents — i.e. `ceil(density·N)` when the minority count does not exceed
it — the first group of type 0 (the type the `minority_pc` count governs)
and the rest of type 1, each on a node drawn from the empty list and then
removed from it, so all agents occupy pairwise distinct nodes. -/
theorem construction_count_ceil (g : Topology) (d mp hφ : ℚ) (ord : List Nat)
    (r r' : Rand) (s : SState)
    (hok : Schelling.init g d mp hφ ord r = .ok (s, r')) :
    s.n_agents =
      (pyRound (d * (g.length : ℚ) * mp)).toNat +
        (⌈d * (g.length : ℚ)⌉.toNat - (pyRound (d * (g.length : ℚ) * mp)).toNat) ∧
    s.agent_list.map (·.type) =
      List.replicate (pyRound (d * (g.length : ℚ) * mp)).toNat 0 ++
        List.replicate
          (⌈d * (g.length : ℚ)⌉.toNat -
            (pyRound (d * (g.length : ℚ) * mp)).toNat) 1 ∧
    (s.agent_list.map (·.pos)).Nodup := by
  unfold Schelling.init at hok
  dsimp only at hok
  cases hp0 : placeLoop 0 (pyRound (d * (g.length : ℚ) * mp)).toNat
      { agent_list := [], happy := 0, empty := List.range g.length,
        unhappy_list := [], number_of_moves := 0, n_agents := 0,
        running := true, homophily := hφ, density := d, minority_pc := mp } r with
  | error e => rw [hp0] at hok; exact absurd hok (by simp)
  | ok p1 =>
    obtain ⟨s1, r1⟩ := p1
    rw [hp0] at hok
    dsimp only at hok
    cases hp1 : placeLoop 1
        (⌈d * (g.length : ℚ)⌉.toNat - (pyRound (d * (g.length : ℚ) * mp)).toNat)
        s1 r1 with
    | error e => rw [hp1] at hok; exact absurd hok (by simp)
    | ok p2 =>
      obtain ⟨s2, r2⟩ := p2
      rw [hp1] at hok
      dsimp only at hok
      simp only [Except.ok.injEq, Prod.mk.injEq] at hok
      obtain ⟨hs, -⟩ := hok
      obtain ⟨-, -, hn1, -, -⟩ := placeLoop_ok_basic _ _ _ _ _ _ hp0
      obtain ⟨-, -, hn2, -, -⟩ := placeLoop_ok_basic _ _ _ _ _ _ hp1
      have hty1 := placeLoop_ok_types _ _ _ _ _ _ hp0
      have hty2 := placeLoop_ok_types _ _ _ _ _ _ hp1
      have hpi2 : PlaceInv s2 := by
        refine placeLoop_placeInv _ _ _ _ _ _ hp1
          (placeLoop_placeInv _ _ _ _ _ _ hp0 ⟨List.nodup_range _, ?_, ?_⟩)
        · simp
        · intro p hp hp'
          simp at hp'
      refine ⟨?_, ?_, ?_⟩
      · rw [← hs, SchellingAgent.countFold_n_agents, hn2, hn1]
        simp
      · rw [← hs, SchellingAgent.countFold_map_type, hty2, hty1]
        simp
      · rw [← hs, SchellingAgent.countFold_map_pos]
        exact hpi2.2.1

theorem construction_count_ceil_witness :
    stateC6.n_agents =
      (pyRound ((1/4 : ℚ) * (topoC6.length : ℚ) * (1/2))).toNat +
        (⌈(1/4 : ℚ) * (topoC6.length : ℚ)⌉.toNat -
          (pyRound ((1/4 : ℚ) * (topoC6.length : ℚ) * (1/2))).toNat) ∧
    stateC6.agent_list.map (·.type) =
      List.replicate (pyRound ((1/4 : ℚ) * (topoC6.length : ℚ) * (1/2))).toNat 0 ++
        List.replicate
          (⌈(1/4 : ℚ) * (topoC6.length : ℚ)⌉.toNat -
            (pyRound ((1/4 : ℚ) * (topoC6.length : ℚ) * (1/2))).toNat) 1 ∧
    (stateC6.agent_list.map (·.pos)).Nodup :=
  construction_count_ceil topoC6 (1/4) (1/2) (1/2) [0, 1, 2] [0, 0, 0] []
    stateC6 (by with_unfolding_all rfl)

/-- C7 (counterexample): construction succeeds — no error is raised, a
full state is produced — with `density = 0 ∉ (0,1)`,
`minority_fraction = 3/2 ∉ [0,1]` and `homophily_threshold = 7 ∉ [0,1]`,
and equally on a zero-node topology: the code validates nothing. -/
theorem construction_accepts_invalid :
    (Schelling.init [[]] 0 (3/2) 7 [] []).toOption.isSome = true ∧
    (Schelling.init [] (1/2) (1/2) (1/2) [] []).toOption.isSome = true := by
  constructor <;> with_unfolding_all rfl

/-- C7 (amended): `Schelling.__init__` performs no parameter
validation.  Out-of-range parameters and zero-node topologies are
accepted silently: construction succeeds and builds a state — with zero
agents whenever `density * node_count = 0`, in particular for every
(arbitrarily invalid) `minority_pc` and `homophily` on a zero-node
topology, and for `density = 0` on any topology. -/
theorem construction_no_validation :
    (∀ (d mp hφ : ℚ) (r : Rand),
      (Schelling.init [] d mp hφ [] r).toOption.map (fun p => p.1.n_agents) =
        some 0) ∧
    (∀ (g : Topology) (mp hφ : ℚ) (r : Rand),
      (Schelling.init g 0 mp hφ [] r).toOption.map (fun p => p.1.n_agents) =
        some 0) := by
  constructor
  · intro d mp hφ r
    rw [init_zero_total [] d mp hφ r (by simp)]
    rfl
  · intro g mp hφ r
    rw [init_zero_total g 0 mp hφ r (by simp)]
    rfl

/-- C8 (counterexample): in a consistent state whose unhappy set is
empty, invoking the step/selection path of the move engine does not
"perform no action": `random.choice` on the empty unhappy list raises
`IndexError` — a failure the claim excludes. -/
theorem step_empty_unhappy_raises :
    Consistent demoState ∧ demoState.unhappy_list = [] ∧
    Schelling.step demoTopo demoState [] =
      .error "Cannot choose from an empty sequence" :=
  ⟨by decide, rfl, rfl⟩

/-- C8 (amended): when the unhappy set is empty in a consistent state,
`move` on any agent performs no action — no relocation, no counter
change, no failure — because every agent is happy; but `step`, whose
selection `random.choice(self.unhappy_list)` embodies the move engine's
agent selection, raises `IndexError` instead of doing nothing, which is
why the caller must check for convergence first. -/
theorem move_engine_empty_unhappy (g : Topology) (s : SState) (i : Nat)
    (r : Rand) (hc : Consistent s) (hempty : s.unhappy_list = [])
    (hi : i < s.agent_list.length) :
    SchellingAgent.move g i s r = .ok (s, r) ∧
    ∀ r₂ : Rand,
      Schelling.step g s r₂ = .error "Cannot choose from an empty sequence" := by
  constructor
  · have hhap : (agentAt s i).happy = true := by
      by_cases hf : (agentAt s i).happy = false
      · have := hc.2.2.1 i hi hf
        rw [hempty] at this
        exact absurd this (List.not_mem_nil i)
      · revert hf; cases (agentAt s i).happy <;> simp
    unfold SchellingAgent.move
    rw [if_neg (by simp [hhap])]
  · intro r₂
    unfold Schelling.step
    rw [hempty]
    rfl

theorem move_engine_empty_unhappy_witness :
    SchellingAgent.move demoTopo 0 demoState [] = .ok (demoState, []) ∧
    Schelling.step demoTopo demoState [5] =
      .error "Cannot choose from an empty sequence" :=
  ⟨(move_engine_empty_unhappy demoTopo demoState 0 [] (by decide) rfl
      (by decide)).1,
   (move_engine_empty_unhappy demoTopo demoState 0 [] (by decide) rfl
      (by decide)).2 [5]⟩

/-- C9 (counterexample): `Schelling.step` has no `return` statement:
after a successful step that reaches convergence it returns `None`, not
a boolean indicating whether the state is CONVERGED. -/
theorem step_returns_none :
    Schelling.step demoTopoB demoStateB [0, 0] =
      .ok (demoStepStateB, [], none) ∧
    demoStepStateB.happy = (demoStepStateB.n_agents : Int) ∧
    (none : Option Bool) ≠ some true ∧ (none : Option Bool) ≠ some false :=
  ⟨by with_unfolding_all rfl, by decide, by decide, by decide⟩

/-- C9 (amended): a successful `step` executes one move and then sets
`self.running = (happy < n_agents)`; in a consistent state the run is
thereby CONVERGED (`running = false`) exactly when
`happy_count = total_agent_count`; the method itself returns `None`
rather than a boolean, so convergence must be read from `running`. -/
theorem step_sets_running_no_return (g : Topology) (s : SState) (r : Rand)
    (s' : SState) (r' : Rand) (b : Option Bool) (hc : Consistent s)
    (hok : Schelling.step g s r = .ok (s', r', b)) :
    b = none ∧ s'.running = decide (s'.happy < (s'.n_agents : Int)) ∧
    (s'.running = false ↔ s'.happy = (s'.n_agents : Int)) := by
  have hc' : Consistent s' := step_consistent g s r s' r' b hc hok
  unfold Schelling.step at hok
  cases hre : randChoice s.unhappy_list r with
  | error e => rw [hre] at hok; exact absurd hok (by simp)
  | ok p =>
    obtain ⟨i, r₁⟩ := p
    rw [hre] at hok
    dsimp only at hok
    cases hmv : SchellingAgent.move g i s r₁ with
    | error e => rw [hmv] at hok; exact absurd hok (by simp)
    | ok q =>
      obtain ⟨t, r₂⟩ := q
      rw [hmv] at hok
      simp only [Except.ok.injEq, Prod.mk.injEq] at hok
      obtain ⟨hs', hr', hb⟩ := hok
      subst hs'
      dsimp only
      refine ⟨hb.symm, rfl, ?_⟩
      obtain ⟨-, -, -, hsum, -⟩ := hc'
      have hsum' : t.happy + (t.unhappy_list.length : Int) = (t.n_agents : Int) :=
        hsum
      constructor
      · intro hrun
        simp only [decide_eq_false_iff_not, not_lt] at hrun
        omega
      · intro heq
        simp only [decide_eq_false_iff_not, not_lt]
        omega

theorem step_sets_running_no_return_witness :
    (none : Option Bool) = none ∧
    demoStepStateB.running =
      decide (demoStepStateB.happy < (demoStepStateB.n_agents : Int)) ∧
    (demoStepStateB.running = false ↔
      demoStepStateB.happy = (demoStepStateB.n_agents : Int)) :=
  step_sets_running_no_return demoTopoB demoStateB [0, 0] demoStepStateB []
    none (by decide) (by with_unfolding_all rfl)

/-- C10: invoking `move` on an agent whose `happy` flag is `true`
leaves the whole simulation state — positions, flags, counters, empty
nodes, move count — and the random stream untouched. -/
theorem move_happy_noop (g : Topology) (s : SState) (i : Nat) (r : Rand)
    (hhap : (agentAt s i).happy = true) :
    SchellingAgent.move g i s r = .ok (s, r) := by
  unfold SchellingAgent.move
  rw [if_neg (by simp [hhap])]

theorem move_happy_noop_witness :
    SchellingAgent.move demoTopo 0 demoState [] = .ok (demoState, []) :=
  move_happy_noop demoTopo demoState 0 [] (by decide)

end Claims
